import Mathlib

/-!
Shallow embedding of `src/concurrent_forward_list.hpp` (namespace `hungbiu`),
a singly-linked list with a lock-free head and per-node deletion markers.

Nodes live in a heap modelled as a `List ListNode`; a `shared_ptr<list_node>`
is modelled as `Option Nat`, an optional index into that heap (`none` is the
null pointer).  Allocation (`std::make_shared`) appends a node at the end of
the heap, so a fresh node's id is the old heap length.  The operations are
embedded with their sequential semantics: a compare-and-swap loop on the head
succeeds on the first iteration when no other thread interferes.  A
dereference of a null pointer, or of an index outside the heap, is a
`Fault.nullDeref`; the `throw std::runtime_error` on a failed
`mark_as_deleted` is `Fault.doubleDelete`.
-/

namespace Hungbiu

/-- `list_node` (concurrent_forward_list.hpp, lines 14-59): value,
deletion marker, successor pointer.  The mutex is not part of the data;
lock acquisitions are modelled separately by the `…Locks` functions. -/
structure ListNode where
  m_val : Nat
  m_deleted : Bool
  m_next : Option Nat
  deriving DecidableEq, Repr

/-- The list state: the heap of allocated nodes (node `i` is `heap.get? i`)
and the atomic head pointer `m_head` (lines 179-180). -/
structure ListState where
  heap : List ListNode
  m_head : Option Nat
  deriving DecidableEq, Repr

/-- Failure modes of an operation: dereferencing a null (or dangling)
pointer, and the `std::runtime_error` thrown when `mark_as_deleted`
returns false (lines 243-245, 293-295). -/
inductive Fault where
  | nullDeref
  | doubleDelete
  deriving DecidableEq, Repr

/-- Read node `i` from the heap (follow a `shared_ptr`). -/
def getNode (s : ListState) (i : Nat) : Option ListNode :=
  s.heap[i]?

/-- Write node `i` back to the heap (mutation through a `shared_ptr`). -/
def setNode (s : ListState) (i : Nat) (n : ListNode) : ListState :=
  { s with heap := s.heap.set i n }

/-- `list_node::is_deleted` (lines 47-50): load of the `m_deleted` flag. -/
def is_deleted (n : ListNode) : Bool :=
  n.m_deleted

/-- `list_node::mark_as_deleted` (lines 52-56):
`m_deleted.compare_exchange_strong(false, true)`; returns true only if
`m_deleted` was false, and in that case sets it to true. -/
def mark_as_deleted (n : ListNode) : Bool × ListNode :=
  if n.m_deleted then (false, n) else (true, { n with m_deleted := true })

/-- `concurrent_forward_list::empty` (lines 301-303): true iff the head
pointer is null. -/
def emptyList (s : ListState) : Bool :=
  s.m_head.isNone

/-- `concurrent_forward_list::clear` (lines 211-221): compare-and-swap the
head to the null pointer.  Nothing else in the state is touched. -/
def clear (s : ListState) : ListState :=
  { s with m_head := none }

/-- `concurrent_forward_list::push_front` (lines 222-230): allocate a node
`list_node(val, m_head)` (constructor at line 34: `m_deleted(false)`),
then compare-and-swap it in as the new head. -/
def push_front (s : ListState) (val : Nat) : ListState :=
  let newId := s.heap.length
  { heap := s.heap ++ [⟨val, false, s.m_head⟩], m_head := some newId }

/-- `concurrent_forward_list::pop_front` (lines 232-246): the CAS loop
exits with `old_head` null when the list is empty (the loop guard
`old_head && …` is false), after which `old_head->lock()` dereferences the
null pointer.  On a non-empty list the head advances to `old_head->m_next`
and the detached node is locked and marked deleted; a false return from
`mark_as_deleted` throws. -/
def pop_front (s : ListState) : Except Fault ListState :=
  match s.m_head with
  | none => .error .nullDeref
  | some h =>
    match getNode s h with
    | none => .error .nullDeref
    | some n =>
      let s1 := { s with m_head := n.m_next }
      let r := mark_as_deleted n
      if r.1 then .ok (setNode s1 h r.2) else .error .doubleDelete

/-- `concurrent_forward_list::insert_after` (lines 249-267): allocate
`list_node(val)` (constructor at line 30: `m_deleted(false)`, null
successor); then `pos.m_node_ptr->lock()` — a null-pointer dereference
when `pos` is the end iterator, since there is no null check.  If the
position's node is deleted, return false (the allocated node is dropped,
never linked).  Otherwise splice: new node's successor becomes the
position's old successor, the position's successor becomes the new node. -/
def insert_after (s : ListState) (pos : Option Nat) (val : Nat) :
    Except Fault (ListState × Bool) :=
  let newId := s.heap.length
  let s0 : ListState := { s with heap := s.heap ++ [⟨val, false, none⟩] }
  match pos with
  | none => .error .nullDeref
  | some p =>
    match getNode s p with
    | none => .error .nullDeref
    | some pn =>
      if pn.m_deleted then
        .ok (s0, false)
      else
        let s1 := setNode s0 newId ⟨val, false, pn.m_next⟩
        .ok (setNode s1 p { pn with m_next := some newId }, true)

/-- `concurrent_forward_list::erase_after` (lines 270-298): return false
if `pos` is null or its node has no successor; after locking, return
false again if the node is deleted or has no successor; otherwise capture
the successor `del`, relink `pos`'s successor pointer to `del->m_next`,
and mark `del` deleted, throwing if the marker was already set. -/
def erase_after (s : ListState) (pos : Option Nat) :
    Except Fault (ListState × Bool) :=
  match pos with
  | none => .ok (s, false)
  | some p =>
    match getNode s p with
    | none => .error .nullDeref
    | some pn =>
      match pn.m_next with
      | none => .ok (s, false)
      | some d =>
        if pn.m_deleted then
          .ok (s, false)
        else
          match getNode s d with
          | none => .error .nullDeref
          | some dn =>
            let s1 := setNode s p { pn with m_next := dn.m_next }
            let r := mark_as_deleted dn
            if r.1 then .ok (setNode s1 d r.2, true)
            else .error .doubleDelete

/-- `concurrent_forward_list::begin` / `cbegin` (lines 190-199): an
iterator wrapping the current head pointer. -/
def begin (s : ListState) : Option Nat :=
  s.m_head

/-- `concurrent_forward_list::end` / `cend` (lines 200-205): a
default-constructed iterator, whose `m_node_ptr` is the null pointer. -/
def endIter : Option Nat :=
  none

/-- `concurrent_forward_list_iterator::is_valid` (lines 135-139):
`m_node_ptr && !m_node_ptr->is_deleted()` — true iff the reference is
non-null and the referenced node's deletion flag is false. -/
def iter_is_valid (s : ListState) (it : Option Nat) : Bool :=
  match it with
  | none => false
  | some i =>
    match getNode s i with
    | none => false
    | some n => ! (is_deleted n)

/-- `concurrent_forward_list_iterator::operator*` (lines 145-150):
`m_node_ptr->m_val`; a null or dangling reference faults. -/
def iter_deref (s : ListState) (it : Option Nat) : Except Fault Nat :=
  match it with
  | none => .error .nullDeref
  | some i =>
    match getNode s i with
    | none => .error .nullDeref
    | some n => .ok n.m_val

/-- `concurrent_forward_list_iterator::operator++` (lines 160-164):
`m_node_ptr = m_node_ptr.get()->m_next`; faults on a null reference. -/
def iter_next (s : ListState) (it : Option Nat) : Except Fault (Option Nat) :=
  match it with
  | none => .error .nullDeref
  | some i =>
    match getNode s i with
    | none => .error .nullDeref
    | some n => .ok n.m_next

/-- The node ids visited by following `m_next` from iterator `it`, with
explicit fuel (a well-formed acyclic chain of a heap with `k` nodes is
exhausted by any fuel `≥ k`). -/
def chainAux (s : ListState) : Nat → Option Nat → List Nat
  | 0, _ => []
  | _, none => []
  | fuel + 1, some i =>
    match getNode s i with
    | none => [i]
    | some n => i :: chainAux s fuel n.m_next

/-- The chain of node ids reachable from the head, i.e. the traversal
`begin()` to `end()`; fuel `heap.length + 1` exhausts any acyclic chain. -/
def chain (s : ListState) : List Nat :=
  chainAux s (s.heap.length + 1) s.m_head

/-- The values along the traversal from `begin()` to `end()`. -/
def chainVals (s : ListState) : List Nat :=
  (chain s).filterMap (fun i => (getNode s i).map ListNode.m_val)

/-- A pointer is in range for a heap of `len` nodes when it is null or an
index below `len`. -/
def ptrOk (len : Nat) : Option Nat → Bool
  | none => true
  | some j => j < len

/-- Well-formed state: the head and every node's successor pointer are in
range (no dangling `shared_ptr`, which C++ reference counting rules out). -/
def wf (s : ListState) : Bool :=
  ptrOk s.heap.length s.m_head && s.heap.all (fun n => ptrOk s.heap.length n.m_next)

/-- Node ids on which `push_front` invokes `list_node::lock()`: none —
lines 222-230 contain no call to `lock()`. -/
def push_frontLocks (_s : ListState) (_val : Nat) : List Nat :=
  []

/-- Node ids on which `pop_front` invokes `list_node::lock()`: line 242
locks the detached old head (`old_head->lock()`). -/
def pop_frontLocks (s : ListState) : List Nat :=
  match s.m_head with
  | none => []
  | some h => [h]

/-- Node ids on which `clear` invokes `list_node::lock()`: none — lines
211-221 contain no call to `lock()`. -/
def clearLocks (_s : ListState) : List Nat :=
  []

/-- Node ids on which `empty` invokes `list_node::lock()`: none — lines
301-303 contain no call to `lock()`. -/
def emptyLocks (_s : ListState) : List Nat :=
  []

/-- Sequentially push the values `1..n` onto an empty list
(the `push_front` loop of the test harness, test lines 31-33). -/
def pushSeq : Nat → ListState
  | 0 => ⟨[], none⟩
  | n + 1 => push_front (pushSeq n) (n + 1)

/-- The traversal from the head terminates (reaches the null pointer)
within the heap size — i.e. the chain is acyclic. -/
def terminates (s : ListState) : Bool :=
  decide ((chain s).length ≤ s.heap.length)

/-- The state produced by a successful `pop_front` on a list whose head
is node `h` holding `n`: the head advances to `n.m_next` and node `h` is
marked deleted. -/
def popResult (s : ListState) (h : Nat) (n : ListNode) : ListState :=
  setNode { s with m_head := n.m_next } h { n with m_deleted := true }

/-- The state produced by a successful `insert_after` at node `p` holding
`pn`: the fresh node (id `s.heap.length`) holds `v` and points at `pn`'s
old successor, and `pn`'s successor becomes the fresh node. -/
def insertResult (s : ListState) (p : Nat) (pn : ListNode) (v : Nat) : ListState :=
  setNode
    (setNode { s with heap := s.heap ++ [⟨v, false, none⟩] }
      s.heap.length ⟨v, false, pn.m_next⟩)
    p { pn with m_next := some s.heap.length }

/-- The state produced by a successful `erase_after` at node `p` holding
`pn` whose successor is node `d` holding `dn`: `p`'s successor pointer
skips to `dn.m_next` and node `d` is marked deleted. -/
def eraseResult (s : ListState) (p d : Nat) (pn dn : ListNode) : ListState :=
  setNode (setNode s p { pn with m_next := dn.m_next }) d { dn with m_deleted := true }

/-! ## Helper lemmas about the heap -/

theorem getNode_lt_length {s : ListState} {i : Nat} {n : ListNode}
    (h : getNode s i = some n) : i < s.heap.length :=
  (List.getElem?_eq_some.mp h).1

theorem getNode_setNode_self {s : ListState} {i : Nat} (n : ListNode)
    (h : i < s.heap.length) : getNode (setNode s i n) i = some n :=
  List.getElem?_set_self h

theorem getNode_setNode_ne {s : ListState} {i j : Nat} (n : ListNode)
    (h : i ≠ j) : getNode (setNode s i n) j = getNode s j :=
  List.getElem?_set_ne h

theorem length_setNode (s : ListState) (i : Nat) (n : ListNode) :
    (setNode s i n).heap.length = s.heap.length :=
  List.length_set s.heap i n

theorem getNode_append_lt (s : ListState) (l : List ListNode) (hd : Option Nat)
    {i : Nat} (h : i < s.heap.length) :
    getNode { heap := s.heap ++ l, m_head := hd } i = getNode s i :=
  List.getElem?_append_left h

theorem chainAux_none (s : ListState) (fuel : Nat) : chainAux s fuel none = [] := by
  cases fuel <;> rfl

/-- Once the traversal terminates within its fuel, more fuel does not
change it. -/
theorem chainAux_stable (s : ListState) :
    ∀ fuel fuel' it, (chainAux s fuel it).length < fuel → fuel ≤ fuel' →
      chainAux s fuel' it = chainAux s fuel it := by
  intro fuel
  induction fuel with
  | zero => intro fuel' it hlt _; exact absurd hlt (Nat.not_lt_zero _)
  | succ fuel ih =>
    intro fuel' it hlt hle
    obtain ⟨g, rfl⟩ : ∃ g, fuel' = g + 1 := ⟨fuel' - 1, by omega⟩
    cases it with
    | none => rw [chainAux_none, chainAux_none]
    | some i =>
      cases hn : getNode s i with
      | none => simp [chainAux, hn]
      | some n =>
        simp only [chainAux, hn]
        have hlt' : (chainAux s fuel n.m_next).length < fuel := by
          simpa [chainAux, hn] using hlt
        rw [ih g n.m_next hlt' (by omega)]

/-- Appending fresh nodes to the heap does not change a traversal that
starts at an in-range pointer of a well-formed state. -/
theorem chainAux_heap_append (s : ListState) (l : List ListNode) (hd2 : Option Nat)
    (hwf : wf s = true) :
    ∀ fuel it, ptrOk s.heap.length it = true →
      chainAux { heap := s.heap ++ l, m_head := hd2 } fuel it = chainAux s fuel it := by
  have hparts : ptrOk s.heap.length s.m_head = true ∧
      ∀ x ∈ s.heap, ptrOk s.heap.length x.m_next = true := by
    simpa [wf, List.all_eq_true] using hwf
  intro fuel
  induction fuel with
  | zero => intro it _; cases it <;> rfl
  | succ fuel ih =>
    intro it hok
    cases it with
    | none => rw [chainAux_none, chainAux_none]
    | some i =>
      have hi : i < s.heap.length := by
        simpa [ptrOk] using hok
      have hget : getNode { heap := s.heap ++ l, m_head := hd2 } i = getNode s i :=
        getNode_append_lt s l hd2 hi
      cases hn : getNode s i with
      | none => simp [chainAux, hn, hget]
      | some n =>
        have hmem : n ∈ s.heap := List.getElem?_mem hn
        have hnext : ptrOk s.heap.length n.m_next = true := hparts.2 n hmem
        simp only [chainAux, hn, hget]
        rw [ih n.m_next hnext]

/-- Appending fresh nodes to the heap of a well-formed, acyclic state
leaves the traversal from the head unchanged. -/
theorem chain_heap_append (s : ListState) (l : List ListNode)
    (hwf : wf s = true) (hterm : terminates s = true) :
    chain { heap := s.heap ++ l, m_head := s.m_head } = chain s := by
  have hhead : ptrOk s.heap.length s.m_head = true := by
    have hparts : ptrOk s.heap.length s.m_head = true ∧
        ∀ x ∈ s.heap, ptrOk s.heap.length x.m_next = true := by
      simpa [wf, List.all_eq_true] using hwf
    exact hparts.1
  have hlen : (chain s).length < s.heap.length + 1 := by
    have := of_decide_eq_true (by simpa [terminates] using hterm)
    omega
  show chainAux { heap := s.heap ++ l, m_head := s.m_head }
      ((s.heap ++ l).length + 1) s.m_head = chain s
  rw [chainAux_heap_append s l s.m_head hwf ((s.heap ++ l).length + 1) s.m_head hhead]
  exact chainAux_stable s (s.heap.length + 1) ((s.heap ++ l).length + 1) s.m_head hlen
    (by simp)

/-- Inversion of a successful `pop_front`: the head referenced a live
node, which is now detached and marked deleted. -/
theorem pop_front_ok_inv {s s' : ListState} (hok : pop_front s = Except.ok s') :
    ∃ h n, s.m_head = some h ∧ getNode s h = some n ∧ n.m_deleted = false ∧
      s' = popResult s h n := by
  unfold pop_front at hok
  split at hok
  · exact absurd hok (by simp)
  next h hh =>
    split at hok
    · exact absurd hok (by simp)
    next n hn =>
      by_cases hdel : n.m_deleted
      · simp [mark_as_deleted, hdel] at hok
      · refine ⟨h, n, hh, hn, by simpa using hdel, ?_⟩
        simp [mark_as_deleted, hdel] at hok
        exact hok.symm

/-- Inversion of a successful `insert_after`: the position referenced a
node; either it was deleted (no splice, false) or the fresh node was
spliced in (true). -/
theorem insert_after_ok_inv {s : ListState} {pos : Option Nat} {v : Nat}
    {s' : ListState} {b : Bool} (hok : insert_after s pos v = Except.ok (s', b)) :
    ∃ p pn, pos = some p ∧ getNode s p = some pn ∧
      ((pn.m_deleted = true ∧ b = false ∧
         s' = { s with heap := s.heap ++ [⟨v, false, none⟩] }) ∨
       (pn.m_deleted = false ∧ b = true ∧ s' = insertResult s p pn v)) := by
  unfold insert_after at hok
  split at hok
  · exact absurd hok (by simp)
  next p =>
    split at hok
    · exact absurd hok (by simp)
    next pn hpn =>
      by_cases hdel : pn.m_deleted
      · simp only [if_pos hdel, Except.ok.injEq, Prod.mk.injEq] at hok
        exact ⟨p, pn, rfl, hpn, Or.inl ⟨hdel, hok.2.symm, hok.1.symm⟩⟩
      · simp only [if_neg hdel, Except.ok.injEq, Prod.mk.injEq] at hok
        exact ⟨p, pn, rfl, hpn,
          Or.inr ⟨by simpa using hdel, hok.2.symm, hok.1.symm⟩⟩

/-- Inversion of a successful `erase_after`: either a false return with
the state unchanged (end position, no successor, or deleted position), or
the successor node was unlinked and marked deleted. -/
theorem erase_after_ok_inv {s : ListState} {pos : Option Nat} {s' : ListState}
    {b : Bool} (hok : erase_after s pos = Except.ok (s', b)) :
    (s' = s ∧ b = false) ∨
    (∃ p pn d dn, pos = some p ∧ getNode s p = some pn ∧ pn.m_deleted = false ∧
      pn.m_next = some d ∧ getNode s d = some dn ∧ dn.m_deleted = false ∧ b = true ∧
      s' = eraseResult s p d pn dn) := by
  unfold erase_after at hok
  split at hok
  · left
    simp only [Except.ok.injEq, Prod.mk.injEq] at hok
    exact ⟨hok.1.symm, hok.2.symm⟩
  next p =>
    split at hok
    · exact absurd hok (by simp)
    next pn hpn =>
      split at hok
      · left
        simp only [Except.ok.injEq, Prod.mk.injEq] at hok
        exact ⟨hok.1.symm, hok.2.symm⟩
      next d hd =>
        by_cases hdel : pn.m_deleted
        · left
          simp only [if_pos hdel, Except.ok.injEq, Prod.mk.injEq] at hok
          exact ⟨hok.1.symm, hok.2.symm⟩
        · simp only [if_neg hdel] at hok
          split at hok
          · exact absurd hok (by simp)
          next dn hdn =>
            by_cases hdel2 : dn.m_deleted
            · simp [mark_as_deleted, hdel2] at hok
            · right
              simp [mark_as_deleted, hdel2] at hok
              exact ⟨p, pn, d, dn, rfl, hpn, by simpa using hdel,
                hd, hdn, by simpa using hdel2, hok.2, hok.1.symm⟩

end Hungbiu

namespace Hungbiu

/-- C1, as the spec states it, fails on the empty list: `pop_front` exits
its CAS loop with a null `old_head` and then dereferences it at
`old_head->lock()`, which is neither normal completion nor the
double-delete fault. -/
theorem C1_counterexample :
    ¬ ((∃ s', pop_front { heap := [], m_head := none } = Except.ok s') ∨
       pop_front { heap := [], m_head := none } = Except.error Fault.doubleDelete) := by
  rintro (⟨s', hs⟩ | hs) <;> simp [pop_front] at hs

/-- C1 (amended): for every list state whose head references a node of the
heap — every non-empty list — `pop_front` either completes normally or
raises only the fatal double-delete invariant fault.  The empty list must
be excluded, because there `pop_front` dereferences the null head. -/
theorem C1_pop_front_total_on_nonempty (s : ListState) (h : Nat)
    (hh : s.m_head = some h) (hlt : h < s.heap.length) :
    (∃ s', pop_front s = Except.ok s') ∨
    pop_front s = Except.error Fault.doubleDelete := by
  obtain ⟨n, hn⟩ : ∃ n, getNode s h = some n :=
    ⟨s.heap[h], List.getElem?_eq_getElem hlt⟩
  by_cases hd : n.m_deleted
  · right
    simp [pop_front, hh, hn, mark_as_deleted, hd]
  · left
    refine ⟨setNode { s with m_head := n.m_next } h { n with m_deleted := true }, ?_⟩
    simp [pop_front, hh, hn, mark_as_deleted, hd]

/-- Witness for C1's amended theorem at a concrete one-node list. -/
theorem C1_pop_front_total_on_nonempty_witness :
    (∃ s', pop_front { heap := [⟨5, false, none⟩], m_head := some 0 } = Except.ok s') ∨
    pop_front { heap := [⟨5, false, none⟩], m_head := some 0 } =
      Except.error Fault.doubleDelete :=
  C1_pop_front_total_on_nonempty _ 0 rfl (by decide)

/-- C8, as the spec states it, fails on `pop_front`: on a one-node list it
acquires the detached node's lock (`old_head->lock()`, line 242), so its
lock-acquisition trace is not empty. -/
theorem C8_counterexample :
    ¬ (pop_frontLocks { heap := [⟨5, false, none⟩], m_head := some 0 } = []) := by
  decide

/-- C8 (amended): `push_front`, `clear` and `empty` never acquire any
node's lock; `pop_front` acquires no lock on the empty list but exactly
one lock — the detached old head's — on a non-empty list. -/
theorem C8_head_ops_lock_free (s : ListState) (v : Nat) :
    push_frontLocks s v = [] ∧ clearLocks s = [] ∧ emptyLocks s = [] ∧
    (s.m_head = none → pop_frontLocks s = []) ∧
    (∀ h, s.m_head = some h → pop_frontLocks s = [h]) := by
  refine ⟨rfl, rfl, rfl, ?_, ?_⟩
  · intro hh
    simp [pop_frontLocks, hh]
  · intro h hh
    simp [pop_frontLocks, hh]

/-- Witness for C8's amended theorem: on a concrete one-node list,
`pop_front` locks exactly the head node. -/
theorem C8_head_ops_lock_free_witness :
    pop_frontLocks { heap := [⟨5, false, none⟩], m_head := some 0 } = [0] :=
  (C8_head_ops_lock_free { heap := [⟨5, false, none⟩], m_head := some 0 } 7).2.2.2.2
    0 rfl

/-- C9: `insert_after` called at the end iterator dereferences the null
position without any check (it does not return false), in contrast to
`erase_after`, which guards the end position and returns false; when the
position references a node, `insert_after` always completes normally. -/
theorem C9_insert_after_end_faults (s : ListState) (v : Nat) :
    insert_after s none v = Except.error Fault.nullDeref ∧
    (∀ s' b, insert_after s none v ≠ Except.ok (s', b)) ∧
    erase_after s none = Except.ok (s, false) ∧
    (∀ p pn, getNode s p = some pn → ∃ r, insert_after s (some p) v = Except.ok r) := by
  refine ⟨rfl, ?_, rfl, ?_⟩
  · intro s' b h
    simp [insert_after] at h
  · intro p pn hg
    by_cases hd : pn.m_deleted
    · refine ⟨({ s with heap := s.heap ++ [⟨v, false, none⟩] }, false), ?_⟩
      simp [insert_after, hg, hd]
    · refine ⟨(setNode
          (setNode { s with heap := s.heap ++ [⟨v, false, none⟩] }
            s.heap.length ⟨v, false, pn.m_next⟩)
          p { pn with m_next := some s.heap.length }, true), ?_⟩
      simp [insert_after, hg, hd]

/-- Witness for C9 at a concrete one-node list. -/
theorem C9_insert_after_end_faults_witness :
    ∃ r, insert_after { heap := [⟨3, false, none⟩], m_head := some 0 } (some 0) 4 =
      Except.ok r :=
  (C9_insert_after_end_faults { heap := [⟨3, false, none⟩], m_head := some 0 } 4).2.2.2
    0 ⟨3, false, none⟩ rfl

/-- C10: `clear` only swings the head to null: the heap — in particular
every node's deletion flag — is untouched, the traversal from the new
head is empty (no node remains reachable), and any iterator obtained
before the clear keeps its validity and still dereferences to its value. -/
theorem C10_clear_frame (s : ListState) (i : Nat) :
    (clear s).m_head = none ∧
    (clear s).heap = s.heap ∧
    getNode (clear s) i = getNode s i ∧
    chain (clear s) = [] ∧
    (iter_is_valid s (some i) = true → iter_is_valid (clear s) (some i) = true) ∧
    iter_deref (clear s) (some i) = iter_deref s (some i) := by
  refine ⟨rfl, rfl, rfl, ?_, ?_, rfl⟩
  · exact chainAux_none _ _
  · intro h
    exact h

/-- Witness for C10 at a concrete one-node list with a live iterator. -/
theorem C10_clear_frame_witness :
    iter_is_valid (clear { heap := [⟨9, false, none⟩], m_head := some 0 }) (some 0) = true :=
  (C10_clear_frame { heap := [⟨9, false, none⟩], m_head := some 0 } 0).2.2.2.2.1
    (by decide)

/-- C2: `erase_after` returns false exactly when the position is the end
position, has no successor, or is marked deleted; otherwise it relinks
the position's successor pointer to skip the captured successor node and
marks that node deleted — raising the fatal double-delete fault if the
marker was already set — returning true and changing no node other than
the position and the captured successor. -/
theorem C2_erase_after_spec (s : ListState) (p : Nat) (pn : ListNode)
    (hg : getNode s p = some pn) :
    erase_after s none = Except.ok (s, false) ∧
    (pn.m_next = none → erase_after s (some p) = Except.ok (s, false)) ∧
    (pn.m_deleted = true → erase_after s (some p) = Except.ok (s, false)) ∧
    (∀ d dn, pn.m_next = some d → pn.m_deleted = false → getNode s d = some dn →
      (dn.m_deleted = true → erase_after s (some p) = Except.error Fault.doubleDelete) ∧
      (dn.m_deleted = false →
        erase_after s (some p) = Except.ok (eraseResult s p d pn dn, true) ∧
        getNode (eraseResult s p d pn dn) d = some { dn with m_deleted := true } ∧
        (p ≠ d →
          getNode (eraseResult s p d pn dn) p = some { pn with m_next := dn.m_next }) ∧
        (∀ j, j ≠ p → j ≠ d →
          getNode (eraseResult s p d pn dn) j = getNode s j))) := by
  refine ⟨rfl, ?_, ?_, ?_⟩
  · intro h
    simp [erase_after, hg, h]
  · intro h
    cases hnx : pn.m_next with
    | none => simp [erase_after, hg, hnx]
    | some d => simp [erase_after, hg, hnx, h]
  · intro d dn hnx hdel hgd
    constructor
    · intro hd2
      simp [erase_after, hg, hnx, hdel, hgd, mark_as_deleted, hd2]
    · intro hd2
      have hdlt : d < s.heap.length := getNode_lt_length hgd
      have hplt : p < s.heap.length := getNode_lt_length hg
      refine ⟨?_, ?_, ?_, ?_⟩
      · simp [erase_after, hg, hnx, hdel, hgd, mark_as_deleted, hd2, eraseResult]
      · show getNode (setNode (setNode s p _) d _) d = _
        exact getNode_setNode_self _ (by rw [length_setNode]; exact hdlt)
      · intro hpd
        show getNode (setNode (setNode s p _) d _) p = _
        rw [getNode_setNode_ne _ (Ne.symm hpd)]
        exact getNode_setNode_self _ hplt
      · intro j hjp hjd
        show getNode (setNode (setNode s p _) d _) j = _
        rw [getNode_setNode_ne _ (Ne.symm hjd), getNode_setNode_ne _ (Ne.symm hjp)]

/-- Witness for C2 on a concrete two-node list: erasing after the head
unlinks and marks the second node. -/
theorem C2_erase_after_spec_witness :
    erase_after { heap := [⟨1, false, some 1⟩, ⟨2, false, none⟩], m_head := some 0 }
        (some 0) =
      Except.ok
        (eraseResult { heap := [⟨1, false, some 1⟩, ⟨2, false, none⟩], m_head := some 0 }
          0 1 ⟨1, false, some 1⟩ ⟨2, false, none⟩, true) :=
  (((C2_erase_after_spec
        { heap := [⟨1, false, some 1⟩, ⟨2, false, none⟩], m_head := some 0 }
        0 ⟨1, false, some 1⟩ rfl).2.2.2
      1 ⟨2, false, none⟩ rfl rfl rfl).2 rfl).1

/-- C3: `insert_after` at a live position splices a fresh node holding
the value between the position and its old successor and returns true; at
a concurrently deleted position it returns false and the fresh node is
never linked — the head, every existing node, and (for a well-formed
acyclic state) the whole traversal are unchanged. -/
theorem C3_insert_after_spec (s : ListState) (p : Nat) (pn : ListNode) (v : Nat)
    (hg : getNode s p = some pn) :
    (∀ s' b, insert_after s (some p) v = Except.ok (s', b) →
      (b = false ↔ pn.m_deleted = true)) ∧
    (pn.m_deleted = true →
      insert_after s (some p) v =
        Except.ok ({ s with heap := s.heap ++ [⟨v, false, none⟩] }, false) ∧
      ({ s with heap := s.heap ++ [⟨v, false, none⟩] } : ListState).m_head = s.m_head ∧
      (∀ i, i < s.heap.length →
        getNode { s with heap := s.heap ++ [⟨v, false, none⟩] } i = getNode s i) ∧
      (wf s = true → terminates s = true →
        chain { s with heap := s.heap ++ [⟨v, false, none⟩] } = chain s)) ∧
    (pn.m_deleted = false →
      insert_after s (some p) v = Except.ok (insertResult s p pn v, true) ∧
      getNode (insertResult s p pn v) s.heap.length = some ⟨v, false, pn.m_next⟩ ∧
      getNode (insertResult s p pn v) p = some { pn with m_next := some s.heap.length } ∧
      (insertResult s p pn v).m_head = s.m_head ∧
      (∀ j, j < s.heap.length → j ≠ p →
        getNode (insertResult s p pn v) j = getNode s j)) := by
  have hplt : p < s.heap.length := getNode_lt_length hg
  refine ⟨?_, ?_, ?_⟩
  · intro s' b hok
    obtain ⟨p', pn', hpos, hg', hbr⟩ := insert_after_ok_inv hok
    obtain rfl : p = p' := Option.some.inj hpos
    obtain rfl : pn = pn' := by
      rw [hg] at hg'
      exact Option.some.inj hg'
    rcases hbr with ⟨hdel, hb, _⟩ | ⟨hdel, hb, _⟩ <;> simp [hb, hdel]
  · intro hdel
    refine ⟨by simp [insert_after, hg, hdel], rfl, ?_, ?_⟩
    · intro i hi
      exact getNode_append_lt s _ s.m_head hi
    · intro hwf hterm
      exact chain_heap_append s _ hwf hterm
  · intro hdel
    have hlen1 : (setNode { s with heap := s.heap ++ [⟨v, false, none⟩] }
        s.heap.length (⟨v, false, pn.m_next⟩ : ListNode)).heap.length =
        s.heap.length + 1 := by
      rw [length_setNode]
      simp
    refine ⟨by simp [insert_after, hg, hdel, insertResult], ?_, ?_, rfl, ?_⟩
    · show getNode (setNode (setNode _ s.heap.length _) p _) s.heap.length = _
      rw [getNode_setNode_ne _ (Nat.ne_of_lt hplt)]
      exact getNode_setNode_self _ (by simp [hlen1])
    · show getNode (setNode (setNode _ s.heap.length _) p _) p = _
      exact getNode_setNode_self _ (by rw [hlen1]; omega)
    · intro j hj hjp
      show getNode (setNode (setNode _ s.heap.length _) p _) j = _
      rw [getNode_setNode_ne _ (Ne.symm hjp),
        getNode_setNode_ne _ (Nat.ne_of_lt hj).symm]
      exact getNode_append_lt s _ s.m_head hj

/-- Witness for C3 on a concrete two-node list: insertion after the live
head succeeds, insertion after the deleted node fails and leaves the
traversal unchanged. -/
theorem C3_insert_after_spec_witness :
    insert_after { heap := [⟨1, false, none⟩, ⟨2, true, none⟩], m_head := some 0 }
        (some 0) 7 =
      Except.ok
        (insertResult { heap := [⟨1, false, none⟩, ⟨2, true, none⟩], m_head := some 0 }
          0 ⟨1, false, none⟩ 7, true) ∧
    chain
      { heap := [⟨1, false, none⟩, ⟨2, true, none⟩] ++ [⟨7, false, none⟩],
        m_head := some 0 } =
      chain { heap := [⟨1, false, none⟩, ⟨2, true, none⟩], m_head := some 0 } :=
  ⟨((C3_insert_after_spec
        { heap := [⟨1, false, none⟩, ⟨2, true, none⟩], m_head := some 0 }
        0 ⟨1, false, none⟩ 7 rfl).2.2 rfl).1,
   ((C3_insert_after_spec
        { heap := [⟨1, false, none⟩, ⟨2, true, none⟩], m_head := some 0 }
        1 ⟨2, true, none⟩ 7 rfl).2.1 rfl).2.2.2 (by decide) (by decide)⟩

set_option maxRecDepth 8000 in
/-- C4: `push_front` makes the new head a fresh node whose value is `val`
and whose successor is the previous head, leaving every existing node
unchanged; pushing 1..100 into an empty list gives a 100-node traversal
summing to 5050 on which every position is valid. -/
theorem C4_push_front_spec (s : ListState) (v : Nat) :
    (push_front s v).m_head = some s.heap.length ∧
    getNode (push_front s v) s.heap.length = some ⟨v, false, s.m_head⟩ ∧
    (∀ i, i < s.heap.length → getNode (push_front s v) i = getNode s i) ∧
    (chain (pushSeq 100)).length = 100 ∧
    (chainVals (pushSeq 100)).sum = 5050 ∧
    (chain (pushSeq 100)).all (fun i => iter_is_valid (pushSeq 100) (some i)) = true := by
  refine ⟨rfl, ?_, ?_, by decide, by decide, by decide⟩
  · show (s.heap ++ [⟨v, false, s.m_head⟩])[s.heap.length]? = _
    exact List.getElem?_concat_length s.heap _
  · intro i hi
    exact getNode_append_lt s _ _ hi

/-- Witness for C4: pushing onto a concrete one-node list leaves the
existing node unchanged. -/
theorem C4_push_front_spec_witness :
    getNode (push_front { heap := [⟨1, false, none⟩], m_head := some 0 } 2) 0 =
      getNode { heap := [⟨1, false, none⟩], m_head := some 0 } 0 :=
  (C4_push_front_spec { heap := [⟨1, false, none⟩], m_head := some 0 } 2).2.2.1 0
    (by decide)

set_option maxRecDepth 8000 in
/-- C5: on a non-empty list, `pop_front` advances the head to the current
head's successor and marks the detached node deleted, leaving every other
node unchanged; after pushing 1..100, one `pop_front` makes the front
value 99. -/
theorem C5_pop_front_spec (s : ListState) (h : Nat) (n : ListNode)
    (hh : s.m_head = some h) (hg : getNode s h = some n) (hd : n.m_deleted = false) :
    pop_front s = Except.ok (popResult s h n) ∧
    (popResult s h n).m_head = n.m_next ∧
    getNode (popResult s h n) h = some { n with m_deleted := true } ∧
    (∀ j, j ≠ h → getNode (popResult s h n) j = getNode s j) ∧
    (do
      let s1 ← pop_front (pushSeq 100)
      iter_deref s1 (begin s1) : Except Fault Nat) = Except.ok 99 := by
  refine ⟨?_, rfl, ?_, ?_, by rfl⟩
  · simp [pop_front, hh, hg, mark_as_deleted, hd, popResult]
  · exact getNode_setNode_self _ (getNode_lt_length hg)
  · intro j hj
    exact getNode_setNode_ne _ (Ne.symm hj)

/-- Witness for C5: popping the two-element list built by pushing 1 then 2. -/
theorem C5_pop_front_spec_witness :
    pop_front (pushSeq 2) = Except.ok (popResult (pushSeq 2) 1 ⟨2, false, some 0⟩) :=
  (C5_pop_front_spec (pushSeq 2) 1 ⟨2, false, some 0⟩ rfl rfl rfl).1

/-- C6: a node's deleted flag is a one-way, one-time transition:
`mark_as_deleted` returns true exactly when it performed the
false-to-true transition (and changes nothing on an already-deleted
node), and no list operation ever resets an existing node's deleted flag
from true to false. -/
theorem C6_deleted_flag_one_way (n0 : ListNode) (s : ListState) (i : Nat)
    (nd : ListNode) (hg : getNode s i = some nd) (hd : nd.m_deleted = true) :
    (mark_as_deleted n0).1 = !n0.m_deleted ∧
    (n0.m_deleted = true → (mark_as_deleted n0).2 = n0) ∧
    (n0.m_deleted = false → (mark_as_deleted n0).2 = { n0 with m_deleted := true }) ∧
    (∀ v, ∃ n', getNode (push_front s v) i = some n' ∧ n'.m_deleted = true) ∧
    (∃ n', getNode (clear s) i = some n' ∧ n'.m_deleted = true) ∧
    (∀ s', pop_front s = Except.ok s' →
      ∃ n', getNode s' i = some n' ∧ n'.m_deleted = true) ∧
    (∀ pos v s' b, insert_after s pos v = Except.ok (s', b) →
      ∃ n', getNode s' i = some n' ∧ n'.m_deleted = true) ∧
    (∀ pos s' b, erase_after s pos = Except.ok (s', b) →
      ∃ n', getNode s' i = some n' ∧ n'.m_deleted = true) := by
  have hilt : i < s.heap.length := getNode_lt_length hg
  refine ⟨?_, ?_, ?_, ?_, ⟨nd, hg, hd⟩, ?_, ?_, ?_⟩
  · cases h0 : n0.m_deleted <;> simp [mark_as_deleted, h0]
  · intro h0
    simp [mark_as_deleted, h0]
  · intro h0
    simp [mark_as_deleted, h0]
  · intro v
    exact ⟨nd, (getNode_append_lt s _ _ hilt).trans hg, hd⟩
  · intro s' hok
    obtain ⟨h0, n, hh, hn, hdel, rfl⟩ := pop_front_ok_inv hok
    have hne : h0 ≠ i := by
      intro he
      subst he
      rw [hg] at hn
      obtain rfl := Option.some.inj hn
      simp [hd] at hdel
    refine ⟨nd, ?_, hd⟩
    show getNode (setNode _ h0 _) i = _
    rw [getNode_setNode_ne _ hne]
    exact hg
  · intro pos v s' b hok
    obtain ⟨p, pn, rfl, hgp, hbr⟩ := insert_after_ok_inv hok
    rcases hbr with ⟨hdel, _, rfl⟩ | ⟨hdel, _, rfl⟩
    · exact ⟨nd, (getNode_append_lt s _ _ hilt).trans hg, hd⟩
    · have hip : i ≠ p := by
        intro he
        subst he
        rw [hg] at hgp
        obtain rfl := Option.some.inj hgp
        simp [hd] at hdel
      refine ⟨nd, ?_, hd⟩
      show getNode (setNode (setNode _ s.heap.length _) p _) i = _
      rw [getNode_setNode_ne _ (Ne.symm hip),
        getNode_setNode_ne _ (Nat.ne_of_lt hilt).symm]
      exact (getNode_append_lt s _ _ hilt).trans hg
  · intro pos s' b hok
    rcases erase_after_ok_inv hok with ⟨rfl, _⟩ |
      ⟨p, pn, d, dn, hpos, hgp, hdelp, hnx, hgd, hdeld, hb, rfl⟩
    · exact ⟨nd, hg, hd⟩
    · have hip : i ≠ p := by
        intro he
        subst he
        rw [hg] at hgp
        obtain rfl := Option.some.inj hgp
        simp [hd] at hdelp
      have hid : i ≠ d := by
        intro he
        subst he
        rw [hg] at hgd
        obtain rfl := Option.some.inj hgd
        simp [hd] at hdeld
      refine ⟨nd, ?_, hd⟩
      show getNode (setNode (setNode s p _) d _) i = _
      rw [getNode_setNode_ne _ (Ne.symm hid), getNode_setNode_ne _ (Ne.symm hip)]
      exact hg

/-- Witness for C6: a deleted node stays deleted across a successful
`insert_after` elsewhere in a concrete list. -/
theorem C6_deleted_flag_one_way_witness :
    ∃ n', getNode
        (insertResult { heap := [⟨2, true, none⟩, ⟨1, false, some 0⟩], m_head := some 1 }
          1 ⟨1, false, some 0⟩ 9) 0 = some n' ∧ n'.m_deleted = true :=
  (C6_deleted_flag_one_way ⟨0, false, none⟩
      { heap := [⟨2, true, none⟩, ⟨1, false, some 0⟩], m_head := some 1 }
      0 ⟨2, true, none⟩ rfl rfl).2.2.2.2.2.2.1
    (some 1) 9
    (insertResult { heap := [⟨2, true, none⟩, ⟨1, false, some 0⟩], m_head := some 1 }
      1 ⟨1, false, some 0⟩ 9)
    true rfl

/-- C7: an iterator is valid exactly when its reference is non-null and
the referenced node is not deleted; after `erase_after` removes node X,
an iterator referencing X reports invalid, while dereferencing it still
returns X's last value without fault. -/
theorem C7_iterator_validity (s : ListState) (it : Option Nat) :
    (iter_is_valid s it = true ↔
      ∃ i n, it = some i ∧ getNode s i = some n ∧ n.m_deleted = false) ∧
    (∀ p pn d dn s', getNode s p = some pn → pn.m_next = some d →
      getNode s d = some dn → erase_after s (some p) = Except.ok (s', true) →
      iter_deref s (some d) = Except.ok dn.m_val ∧
      iter_is_valid s' (some d) = false ∧
      iter_deref s' (some d) = Except.ok dn.m_val) := by
  constructor
  · cases it with
    | none => simp [iter_is_valid]
    | some i =>
      cases hn : getNode s i with
      | none => simp [iter_is_valid, hn]
      | some n =>
        simp only [iter_is_valid, is_deleted, hn]
        constructor
        · intro hb
          exact ⟨i, n, rfl, hn, by simpa using hb⟩
        · rintro ⟨i', n', hi, hg', hdel⟩
          obtain rfl := Option.some.inj hi
          rw [hn] at hg'
          obtain rfl := Option.some.inj hg'
          simp [hdel]
  · intro p pn d dn s' hgp hnx hgd hok
    rcases erase_after_ok_inv hok with ⟨_, hb⟩ |
      ⟨p', pn', d', dn', hpos, hgp', hdelp, hnx', hgd', hdeld, _, rfl⟩
    · exact Bool.noConfusion hb
    · obtain rfl : p = p' := Option.some.inj hpos
      rw [hgp] at hgp'
      obtain rfl := Option.some.inj hgp'
      rw [hnx] at hnx'
      obtain rfl := Option.some.inj hnx'
      rw [hgd] at hgd'
      obtain rfl := Option.some.inj hgd'
      have hget : getNode (eraseResult s p d pn dn) d =
          some { dn with m_deleted := true } := by
        show getNode (setNode (setNode s p _) d _) d = _
        exact getNode_setNode_self _ (by rw [length_setNode]; exact getNode_lt_length hgd)
      refine ⟨by simp [iter_deref, hgd], ?_, ?_⟩
      · simp [iter_is_valid, is_deleted, hget]
      · simp [iter_deref, hget]

/-- Witness for C7: on a concrete two-node list, after erasing the second
node an iterator at it is invalid. -/
theorem C7_iterator_validity_witness :
    iter_is_valid
      (eraseResult { heap := [⟨1, false, some 1⟩, ⟨2, false, none⟩], m_head := some 0 }
        0 1 ⟨1, false, some 1⟩ ⟨2, false, none⟩) (some 1) = false :=
  ((C7_iterator_validity
      { heap := [⟨1, false, some 1⟩, ⟨2, false, none⟩], m_head := some 0 }
      (some 1)).2 0 ⟨1, false, some 1⟩ 1 ⟨2, false, none⟩
      (eraseResult { heap := [⟨1, false, some 1⟩, ⟨2, false, none⟩], m_head := some 0 }
        0 1 ⟨1, false, some 1⟩ ⟨2, false, none⟩)
      rfl rfl rfl rfl).2.1

end Hungbiu
